import Mathlib

/-!
Verification of the Reddit thread scraper (thread_scraper.py).

The Python source is shallowly embedded: each PRAW-facing object is a plain
record, the lazily paginated comment listing is an inductive forest whose
continuation placeholders carry their resolution outcome, and every function
of the script becomes a pure Lean function over those records.
-/

set_option maxHeartbeats 1000000

/-- Raw data carried by a PRAW comment object, as read by
`extract_comment_data` (thread_scraper.py lines 40-57).  `author` is `none`
when the comment author is deleted (Python `comment.author is None`);
`depth_attr` is `none` when the object lacks a `depth` attribute. -/
structure CommentInfo where
  id : String
  author : Option String
  body : String
  score : Int
  created_utc : Nat
  permalink : String
  parent_id : String
  depth_attr : Option Nat
  is_submitter : Bool
  distinguished : Option String
  edited : Bool
  controversiality : Nat
  gilded : Nat
deriving Repr, DecidableEq

/-- Models Python `datetime.fromtimestamp(t).isoformat()`: an injective
rendering of the timestamp into a string of digit characters.  No claim
depends on the exact text, only on it being a quote-free, newline-free
string, which holds for the real ISO format as well. -/
def isoformat (t : Nat) : String := toString t

/-- The dictionary built by `RedditThreadScraper.extract_comment_data`
(lines 40-57). -/
structure ExtractedComment where
  id : String
  author : String
  body : String
  score : Int
  created_utc : Nat
  created_datetime : String
  permalink : String
  parent_id : String
  depth : Nat
  is_submitter : Bool
  distinguished : Option String
  edited : Bool
  controversiality : Nat
  gilded : Nat
deriving Repr, DecidableEq

/-- Translation of `extract_comment_data` (lines 40-57):
`str(comment.author) if comment.author else '[deleted]'` becomes a match on
the optional author, and `comment.depth if hasattr(comment, 'depth') else 0`
becomes `Option.getD`. -/
def extract_comment_data (c : CommentInfo) : ExtractedComment :=
  { id := c.id
    author := match c.author with
      | some a => a
      | none => "[deleted]"
    body := c.body
    score := c.score
    created_utc := c.created_utc
    created_datetime := isoformat c.created_utc
    permalink := c.permalink
    parent_id := c.parent_id
    depth := c.depth_attr.getD 0
    is_submitter := c.is_submitter
    distinguished := c.distinguished
    edited := c.edited
    controversiality := c.controversiality
    gilded := c.gilded }

/-- Raw data of a PRAW submission object, as read in `scrape_submission`
(lines 112-130). -/
structure PostInfo where
  id : String
  title : String
  author : Option String
  score : Int
  upvote_ratio : Float
  num_comments : Nat
  created_utc : Nat
  url : String
  selftext : String
  permalink : String
  subreddit : String
  link_flair_text : Option String
  over_18 : Bool
  spoiler : Bool
  locked : Bool
  gilded : Nat
deriving Repr

/-- The `post_data` dictionary built in `scrape_submission` (lines 112-130). -/
structure PostData where
  id : String
  title : String
  author : String
  score : Int
  upvote_ratio : Float
  num_comments : Nat
  created_utc : Nat
  created_datetime : String
  url : String
  selftext : String
  permalink : String
  subreddit : String
  link_flair_text : Option String
  over_18 : Bool
  spoiler : Bool
  locked : Bool
  gilded : Nat
deriving Repr

/-- Translation of the `post_data` construction in `scrape_submission`
(lines 112-130), including the `str(submission.author) if submission.author
else '[deleted]'` fallback. -/
def extract_post_data (p : PostInfo) : PostData :=
  { id := p.id
    title := p.title
    author := match p.author with
      | some a => a
      | none => "[deleted]"
    score := p.score
    upvote_ratio := p.upvote_ratio
    num_comments := p.num_comments
    created_utc := p.created_utc
    created_datetime := isoformat p.created_utc
    url := p.url
    selftext := p.selftext
    permalink := p.permalink
    subreddit := p.subreddit
    link_flair_text := p.link_flair_text
    over_18 := p.over_18
    spoiler := p.spoiler
    locked := p.locked
    gilded := p.gilded }

mutual
/-- A PRAW comment object: its extractable data plus its `replies` listing. -/
inductive RawComment : Type where
  | mk (info : CommentInfo) (replies : ReplyForest) : RawComment

/-- A PRAW `CommentForest`: an ordered listing of real comments and
`MoreComments` continuation placeholders.  Each placeholder carries the
outcome that `replace_more(limit=None)` would observe for it: either the
comments it resolves to, or the exception message raised by the API call. -/
inductive ReplyForest : Type where
  | nil : ReplyForest
  | consComment (c : RawComment) (rest : ReplyForest) : ReplyForest
  | consMoreOk (cs : ResolvedComments) (rest : ReplyForest) : ReplyForest
  | consMoreErr (e : String) (rest : ReplyForest) : ReplyForest

/-- The list of comments a successful continuation resolution splices into
the forest. -/
inductive ResolvedComments : Type where
  | nil : ResolvedComments
  | cons (c : RawComment) (rest : ResolvedComments) : ResolvedComments
end

/-- View of `ResolvedComments` as a plain list. -/
def ResolvedComments.toList : ResolvedComments → List RawComment
  | .nil => []
  | .cons c rest => c :: rest.toList

/-- Models `comment.replies.replace_more(limit=None)` (line 84) and
`submission.comments.replace_more(limit=None)` (line 147): every
continuation placeholder is resolved in place, in listing order, yielding
the full comment listing; the first failing resolution raises, modelled by
`Except.error` with the exception message. -/
def replaceMore : ReplyForest → Except String (List RawComment)
  | .nil => .ok []
  | .consComment c rest => (replaceMore rest).map (fun l => c :: l)
  | .consMoreOk cs rest => (replaceMore rest).map (fun l => cs.toList ++ l)
  | .consMoreErr e _ => .error e

/-- The error raised by `replaceMore`, if any; `none` when every
continuation placeholder of the forest resolves. -/
def firstFailure : ReplyForest → Option String
  | .nil => none
  | .consComment _ rest => firstFailure rest
  | .consMoreOk _ rest => firstFailure rest
  | .consMoreErr e _ => some e

/-- The warning printed by the `except` clause of `process_comment_tree`
(line 89). -/
def warnMsg (id e : String) : String :=
  "\n  Warning: Error processing replies for comment " ++ id ++ ": " ++ e

mutual
/-- Translation of `process_comment_tree` (lines 59-91).  The current
comment is extracted and emitted at the given depth; then the `try` block
resolves the continuation placeholders of its replies and recurses into
each reply at depth + 1; if resolution raises, the exception is caught, a
warning is recorded, and only the records accumulated so far (here: the
current comment) are returned.  Returns the flattened records and the
warnings printed.  `processForest` and `processResolved` walk the listing
structurally; `processTree_eq_replaceMore` below recovers the source's
replace-then-iterate reading. -/
def processTree (c : RawComment) (depth : Nat) : List ExtractedComment × List String :=
  match c with
  | .mk info replies =>
    let comment_data := { extract_comment_data info with depth := depth }
    match firstFailure replies with
    | some e => ([comment_data], [warnMsg info.id e])
    | none =>
      let rest := processForest replies (depth + 1)
      (comment_data :: rest.1, rest.2)

/-- Processes every comment of a fully resolving forest in listing order,
splicing continuation resolutions in place. -/
def processForest (f : ReplyForest) (depth : Nat) : List ExtractedComment × List String :=
  match f with
  | .nil => ([], [])
  | .consComment c rest =>
    let a := processTree c depth
    let b := processForest rest depth
    (a.1 ++ b.1, a.2 ++ b.2)
  | .consMoreOk cs rest =>
    let a := processResolved cs depth
    let b := processForest rest depth
    (a.1 ++ b.1, a.2 ++ b.2)
  | .consMoreErr _ rest => processForest rest depth

/-- Processes the comments spliced in by one continuation resolution. -/
def processResolved (cs : ResolvedComments) (depth : Nat) : List ExtractedComment × List String :=
  match cs with
  | .nil => ([], [])
  | .cons c rest =>
    let a := processTree c depth
    let b := processResolved rest depth
    (a.1 ++ b.1, a.2 ++ b.2)
end

/-- The outcome of `replaceMore` determines `firstFailure`: resolution
fails exactly when some placeholder fails. -/
theorem firstFailure_eq_none_iff : (f : ReplyForest) →
    (firstFailure f = none ↔ ∃ cs, replaceMore f = .ok cs)
  | .nil => by simp [firstFailure, replaceMore]
  | .consComment c rest => by
    have ih := firstFailure_eq_none_iff rest
    simp only [firstFailure, replaceMore, ih]
    constructor
    · rintro ⟨cs, h⟩
      exact ⟨c :: cs, by simp [h, Except.map]⟩
    · rintro ⟨cs, h⟩
      cases hr : replaceMore rest with
      | ok l => exact ⟨l, rfl⟩
      | error e => rw [hr] at h; simp [Except.map] at h
  | .consMoreOk cs rest => by
    have ih := firstFailure_eq_none_iff rest
    simp only [firstFailure, replaceMore, ih]
    constructor
    · rintro ⟨l, h⟩
      exact ⟨cs.toList ++ l, by simp [h, Except.map]⟩
    · rintro ⟨l, h⟩
      cases hr : replaceMore rest with
      | ok l2 => exact ⟨l2, rfl⟩
      | error e => rw [hr] at h; simp [Except.map] at h
  | .consMoreErr e rest => by
    simp [firstFailure, replaceMore]

/-- When `replaceMore` fails, `firstFailure` reports the same error. -/
theorem firstFailure_eq_some_iff : (f : ReplyForest) → (e : String) →
    (firstFailure f = some e ↔ replaceMore f = .error e)
  | .nil, e => by simp [firstFailure, replaceMore]
  | .consComment c rest, e => by
    have ih := firstFailure_eq_some_iff rest e
    simp only [firstFailure, replaceMore, ih]
    cases hr : replaceMore rest <;> simp [Except.map]
  | .consMoreOk cs rest, e => by
    have ih := firstFailure_eq_some_iff rest e
    simp only [firstFailure, replaceMore, ih]
    cases hr : replaceMore rest <;> simp [Except.map]
  | .consMoreErr e2 rest, e => by
    simp [firstFailure, replaceMore]

/-- Flattening every tree of a list at one depth and concatenating the
records and warnings in listing order. -/
def flatTrees (l : List RawComment) (depth : Nat) : List ExtractedComment × List String :=
  ((l.map (fun c => (processTree c depth).1)).flatten,
   (l.map (fun c => (processTree c depth).2)).flatten)

theorem flatTrees_nil (d : Nat) : flatTrees [] d = ([], []) := rfl

theorem flatTrees_cons (c : RawComment) (l : List RawComment) (d : Nat) :
    flatTrees (c :: l) d =
      ((processTree c d).1 ++ (flatTrees l d).1, (processTree c d).2 ++ (flatTrees l d).2) := by
  simp [flatTrees]

theorem flatTrees_append (l1 l2 : List RawComment) (d : Nat) :
    flatTrees (l1 ++ l2) d =
      ((flatTrees l1 d).1 ++ (flatTrees l2 d).1, (flatTrees l1 d).2 ++ (flatTrees l2 d).2) := by
  simp [flatTrees]

/-- Processing the comments of one resolved continuation is flattening
them in order. -/
theorem processResolved_eq : (cs : ResolvedComments) → (d : Nat) →
    processResolved cs d = flatTrees cs.toList d
  | .nil, d => rfl
  | .cons c rest, d => by
    have ih := processResolved_eq rest d
    simp [processResolved, ResolvedComments.toList, ih, flatTrees_cons]

/-- When every continuation placeholder of a forest resolves, walking the
forest is the same as flattening the resolved listing in order. -/
theorem processForest_ok : (f : ReplyForest) → (d : Nat) → (l : List RawComment) →
    replaceMore f = .ok l → processForest f d = flatTrees l d
  | .nil, d, l, h => by
    simp only [replaceMore, Except.ok.injEq] at h
    subst h; rfl
  | .consComment c rest, d, l, h => by
    simp only [replaceMore] at h
    cases hr : replaceMore rest with
    | error e => rw [hr] at h; simp [Except.map] at h
    | ok l2 =>
      rw [hr] at h; simp only [Except.map, Except.ok.injEq] at h
      subst h
      have ih := processForest_ok rest d l2 hr
      simp [processForest, ih, flatTrees_cons]
  | .consMoreOk cs rest, d, l, h => by
    simp only [replaceMore] at h
    cases hr : replaceMore rest with
    | error e => rw [hr] at h; simp [Except.map] at h
    | ok l2 =>
      rw [hr] at h; simp only [Except.map, Except.ok.injEq] at h
      subst h
      have ih := processForest_ok rest d l2 hr
      simp [processForest, ih, processResolved_eq, flatTrees_append]
  | .consMoreErr e rest, d, l, h => by
    simp [replaceMore] at h

/-- The source reading of `process_comment_tree` (lines 59-91): emit the
current comment at the given depth, run `replace_more` on its replies, and
either recurse into every resolved reply at depth + 1 or, when resolution
raises, catch the error and return only the current record plus a
warning. -/
theorem processTree_eq_replaceMore (info : CommentInfo) (replies : ReplyForest) (d : Nat) :
    processTree (.mk info replies) d =
      match replaceMore replies with
      | .error e => ([{ extract_comment_data info with depth := d }], [warnMsg info.id e])
      | .ok cs => ({ extract_comment_data info with depth := d } :: (flatTrees cs (d + 1)).1,
                   (flatTrees cs (d + 1)).2) := by
  cases hr : replaceMore replies with
  | error e =>
    have hf : firstFailure replies = some e := (firstFailure_eq_some_iff replies e).mpr hr
    simp [processTree, hf]
  | ok cs =>
    have hf : firstFailure replies = none := (firstFailure_eq_none_iff replies).mpr ⟨cs, hr⟩
    have hpf := processForest_ok replies (d + 1) cs hr
    simp [processTree, hf, hpf]

/-- A PRAW submission object: its extractable data plus its top-level
comment forest. -/
structure Submission where
  info : PostInfo
  comments : ReplyForest

/-- The dictionary returned by `scrape_submission` (lines 157-162). -/
structure ScrapeResult where
  post : PostData
  comments : List ExtractedComment
  total_comments : Nat
  scraped_at : String
deriving Repr

/-- Translation of `scrape_submission` (lines 93-162): extract the post
data, resolve all top-level continuation placeholders (line 147, not
guarded by a `try`, so a failure there aborts the scrape), flatten every
top-level comment tree at depth 0 in listing order (lines 152-153), and
return the post data, the concatenated records, their count and the scrape
timestamp, together with the warnings printed along the way. -/
def scrape_submission (s : Submission) (now : String) :
    Except String (ScrapeResult × List String) :=
  match replaceMore s.comments with
  | .error e => .error e
  | .ok tops =>
    let flat := flatTrees tops 0
    .ok ({ post := extract_post_data s.info
           comments := flat.1
           total_comments := flat.1.length
           scraped_at := now }, flat.2)

/-- The flattened comment sequence of a scrape, empty when the scrape
aborts. -/
def scrapedComments (s : Submission) : List ExtractedComment :=
  match scrape_submission s "" with
  | .ok (r, _) => r.comments
  | .error _ => []

/-- Number of top-level comments after continuation resolution, 0 when
resolution fails. -/
def topLevelCount (s : Submission) : Nat :=
  match replaceMore s.comments with
  | .ok tops => tops.length
  | .error _ => 0

/-- C10: every `ScrapeResult` returned by `scrape_submission` has its
`total_comments` field equal to the length of its `comments` sequence. -/
theorem scrape_total_comments_eq_length (s : Submission) (now : String) :
    (scrape_submission s now).map (fun p => p.1.total_comments) =
    (scrape_submission s now).map (fun p => p.1.comments.length) := by
  cases h : replaceMore s.comments <;> simp [scrape_submission, h, Except.map]

/-- A comment record with only the id varying, used by the concrete
scenarios. -/
def mkInfo (id : String) : CommentInfo :=
  { id := id, author := some "alice", body := "b", score := 1, created_utc := 0,
    permalink := "/p", parent_id := "t3_x", depth_attr := none, is_submitter := false,
    distinguished := none, edited := false, controversiality := 0, gilded := 0 }

def reply11 : RawComment := .mk (mkInfo "reply1_1") .nil

def reply1 : RawComment :=
  .mk (mkInfo "reply1") (.consMoreOk (.cons reply11 .nil) .nil)

def reply2 : RawComment := .mk (mkInfo "reply2") .nil

def topComment : RawComment :=
  .mk (mkInfo "top") (.consComment reply1 (.consComment reply2 .nil))

/-- C1: a thread with one top-level comment having two replies, one of
which carries a continuation placeholder resolving to one further reply,
flattens (via `process_comment_tree` at depth 0, all continuations
resolving) to exactly 4 records in pre-order [top, reply1, reply1.1,
reply2] with depths [0, 1, 2, 1]: every node before its children, children
in listing order, each child one deeper than its parent. -/
theorem scenario_flattens_preorder :
    ((processTree topComment 0).1.map (fun r => (r.id, r.depth))) =
      [("top", 0), ("reply1", 1), ("reply1_1", 2), ("reply2", 1)] := rfl

/-- C3: when resolving the continuation placeholders of one top-level
subtree raises, the scrape does not abort: the failing node still
contributes its own record (with no descendants, since none were resolved
when `replace_more` raised), every other subtree of the thread is
flattened intact in order, and the warning for the failing node is
recorded. -/
theorem continuation_failure_partial (s : Submission) (now : String)
    (tops pre post : List RawComment) (binfo : CommentInfo) (bf : ReplyForest) (e : String)
    (htop : replaceMore s.comments = .ok tops)
    (hsplit : tops = pre ++ (RawComment.mk binfo bf) :: post)
    (hfail : replaceMore bf = .error e) :
    ∃ res ws, scrape_submission s now = .ok (res, ws) ∧
      res.comments = (flatTrees pre 0).1 ++
        ({ extract_comment_data binfo with depth := 0 } :: (flatTrees post 0).1) ∧
      warnMsg binfo.id e ∈ ws := by
  have hbad : processTree (RawComment.mk binfo bf) 0 =
      ([{ extract_comment_data binfo with depth := 0 }], [warnMsg binfo.id e]) := by
    rw [processTree_eq_replaceMore, hfail]
  refine ⟨{ post := extract_post_data s.info, comments := (flatTrees tops 0).1,
            total_comments := (flatTrees tops 0).1.length, scraped_at := now },
          (flatTrees tops 0).2, ?_, ?_, ?_⟩
  · simp [scrape_submission, htop]
  · subst hsplit
    simp [flatTrees_append, flatTrees_cons, hbad]
  · subst hsplit
    simp [flatTrees_append, flatTrees_cons, hbad]

def badComment : RawComment := .mk (mkInfo "bad") (.consMoreErr "boom" .nil)

def demoPost : PostInfo :=
  { id := "p1", title := "T", author := some "op", score := 10, upvote_ratio := 0.9,
    num_comments := 3, created_utc := 5, url := "u", selftext := "", permalink := "/perm",
    subreddit := "sub", link_flair_text := none, over_18 := false, spoiler := false,
    locked := false, gilded := 0 }

/-- A thread whose middle top-level subtree fails continuation
resolution. -/
def failSub : Submission :=
  { info := demoPost,
    comments := .consComment topComment (.consComment badComment (.consComment reply2 .nil)) }

/-- Witness for C3 at a concrete thread: the scrape returns partial data
plus a warning. -/
theorem continuation_failure_partial_witness :
    ∃ res ws, scrape_submission failSub "t" = .ok (res, ws) ∧
      res.comments = (flatTrees [topComment] 0).1 ++
        ({ extract_comment_data (mkInfo "bad") with depth := 0 } :: (flatTrees [reply2] 0).1) ∧
      warnMsg (mkInfo "bad").id "boom" ∈ ws :=
  continuation_failure_partial failSub "t" [topComment, badComment, reply2]
    [topComment] [reply2] (mkInfo "bad") (.consMoreErr "boom" .nil) "boom" rfl rfl rfl

/-- The data record of a comment object. -/
def RawComment.info : RawComment → CommentInfo
  | .mk i _ => i

mutual
/-- All comment ids contained in a comment object: its own id and the ids
in its reply listing, including those behind successful continuation
placeholders, in pre-order. -/
def RawComment.allIds : RawComment → List String
  | .mk info replies => info.id :: replies.allIds

/-- All comment ids contained in a forest, in listing order. -/
def ReplyForest.allIds : ReplyForest → List String
  | .nil => []
  | .consComment c rest => c.allIds ++ rest.allIds
  | .consMoreOk cs rest => cs.allIds ++ rest.allIds
  | .consMoreErr _ rest => rest.allIds

/-- All comment ids behind one continuation resolution. -/
def ResolvedComments.allIds : ResolvedComments → List String
  | .nil => []
  | .cons c rest => c.allIds ++ rest.allIds
end

mutual
/-- Each comment object is visited at most once: the ids of the flattened
records form a sublist of the thread's ids in pre-order. -/
theorem processTree_ids_sublist : (c : RawComment) → (d : Nat) →
    List.Sublist ((processTree c d).1.map (fun r => r.id)) c.allIds
  | .mk info replies, d => by
    cases hf : firstFailure replies with
    | some e =>
      simp only [processTree, hf, RawComment.allIds, List.map_cons, List.map_nil]
      exact List.Sublist.cons₂ _ (List.nil_sublist _)
    | none =>
      have ih := processForest_ids_sublist replies (d + 1)
      simp only [processTree, hf, RawComment.allIds, List.map_cons]
      exact List.Sublist.cons₂ _ ih

theorem processForest_ids_sublist : (f : ReplyForest) → (d : Nat) →
    List.Sublist ((processForest f d).1.map (fun r => r.id)) f.allIds
  | .nil, d => by simp [processForest, ReplyForest.allIds]
  | .consComment c rest, d => by
    have ih1 := processTree_ids_sublist c d
    have ih2 := processForest_ids_sublist rest d
    simp only [processForest, ReplyForest.allIds, List.map_append]
    exact List.Sublist.append ih1 ih2
  | .consMoreOk cs rest, d => by
    have ih1 := processResolved_ids_sublist cs d
    have ih2 := processForest_ids_sublist rest d
    simp only [processForest, ReplyForest.allIds, List.map_append]
    exact List.Sublist.append ih1 ih2
  | .consMoreErr e rest, d => by
    have ih := processForest_ids_sublist rest d
    simpa [processForest, ReplyForest.allIds] using ih

theorem processResolved_ids_sublist : (cs : ResolvedComments) → (d : Nat) →
    List.Sublist ((processResolved cs d).1.map (fun r => r.id)) cs.allIds
  | .nil, d => by simp [processResolved, ResolvedComments.allIds]
  | .cons c rest, d => by
    have ih1 := processTree_ids_sublist c d
    have ih2 := processResolved_ids_sublist rest d
    simp only [processResolved, ResolvedComments.allIds, List.map_append]
    exact List.Sublist.append ih1 ih2
end

mutual
/-- Every record flattened at depth `d` has depth at least `d`. -/
theorem processTree_depth_ge : (c : RawComment) → (d : Nat) →
    ∀ x ∈ (processTree c d).1, d ≤ x.depth
  | .mk info replies, d => by
    cases hf : firstFailure replies with
    | some e =>
      simp [processTree, hf]
    | none =>
      have ih := processForest_depth_ge replies (d + 1)
      simp only [processTree, hf, List.mem_cons]
      rintro x (rfl | hx)
      · exact Nat.le_refl d
      · exact Nat.le_of_succ_le (ih x hx)

theorem processForest_depth_ge : (f : ReplyForest) → (d : Nat) →
    ∀ x ∈ (processForest f d).1, d ≤ x.depth
  | .nil, d => by simp [processForest]
  | .consComment c rest, d => by
    have ih1 := processTree_depth_ge c d
    have ih2 := processForest_depth_ge rest d
    simp only [processForest, List.mem_append]
    rintro x (hx | hx)
    · exact ih1 x hx
    · exact ih2 x hx
  | .consMoreOk cs rest, d => by
    have ih1 := processResolved_depth_ge cs d
    have ih2 := processForest_depth_ge rest d
    simp only [processForest, List.mem_append]
    rintro x (hx | hx)
    · exact ih1 x hx
    · exact ih2 x hx
  | .consMoreErr e rest, d => by
    have ih := processForest_depth_ge rest d
    simpa [processForest] using ih

theorem processResolved_depth_ge : (cs : ResolvedComments) → (d : Nat) →
    ∀ x ∈ (processResolved cs d).1, d ≤ x.depth
  | .nil, d => by simp [processResolved]
  | .cons c rest, d => by
    have ih1 := processTree_depth_ge c d
    have ih2 := processResolved_depth_ge rest d
    simp only [processResolved, List.mem_append]
    rintro x (hx | hx)
    · exact ih1 x hx
    · exact ih2 x hx
end

/-- The flattening of one tree starts with the record of its root, at the
requested depth, and all later records lie strictly deeper. -/
theorem processTree_head_cons (c : RawComment) (d : Nat) :
    ∃ t, (processTree c d).1 = { extract_comment_data c.info with depth := d } :: t ∧
      ∀ q ∈ t, d + 1 ≤ q.depth := by
  cases c with
  | mk info replies =>
    cases hf : firstFailure replies with
    | some e =>
      exact ⟨[], by simp [processTree, hf, RawComment.info], by simp⟩
    | none =>
      exact ⟨(processForest replies (d + 1)).1, by simp [processTree, hf, RawComment.info],
        processForest_depth_ge replies (d + 1)⟩

/-- A depth sequence is parent-linked above `base`: every entry strictly
deeper than `base` is preceded by an entry exactly one level shallower
(its tree parent, the nearest preceding shallower entry), with everything
in between at least as deep as the entry itself. -/
def ParentLinked (base : Nat) (l : List Nat) : Prop :=
  ∀ pre d suf, l = pre ++ d :: suf → base < d →
    ∃ p1 p p2, pre = p1 ++ p :: p2 ∧ p + 1 = d ∧ ∀ q ∈ p2, d ≤ q

theorem parentLinked_nil (b : Nat) : ParentLinked b [] := by
  intro pre d suf h
  simp at h

theorem parentLinked_tree (b : Nat) (l : List Nat)
    (hge : ∀ q ∈ l, b + 1 ≤ q) (hpl : ParentLinked (b + 1) l) :
    ParentLinked b (b :: l) := by
  intro pre d suf h hb
  cases pre with
  | nil =>
    simp only [List.nil_append, List.cons.injEq] at h
    omega
  | cons x pre2 =>
    simp only [List.cons_append, List.cons.injEq] at h
    obtain ⟨rfl, hl⟩ := h
    by_cases hd : d = b + 1
    · refine ⟨[], b, pre2, by simp, by omega, ?_⟩
      intro q hq
      have hql : q ∈ l := by
        rw [hl]
        exact List.mem_append_left _ hq
      have := hge q hql
      omega
    · have hbd : b + 1 < d := by omega
      obtain ⟨p1, p, p2, hpre, hp, hq⟩ := hpl pre2 d suf hl hbd
      exact ⟨b :: p1, p, p2, by simp [hpre], hp, hq⟩

theorem parentLinked_append (b : Nat) (l1 l2 : List Nat)
    (h1 : ParentLinked b l1) (h2 : ParentLinked b l2)
    (hhead : ∀ x, l2.head? = some x → x ≤ b) :
    ParentLinked b (l1 ++ l2) := by
  intro pre d suf h hb
  rcases List.append_eq_append_iff.mp h with ⟨a2, hpre, hl2⟩ | ⟨c2, hl1, hsuf⟩
  · -- the entry lies in l2
    obtain ⟨p1, p, p2, hp, he, hq⟩ := h2 a2 d suf hl2 hb
    exact ⟨l1 ++ p1, p, p2, by simp [hpre, hp], he, hq⟩
  · -- the split point lies in l1
    cases c2 with
    | nil =>
      simp only [List.nil_append] at hsuf
      have : d ≤ b := hhead d (by rw [← hsuf]; rfl)
      omega
    | cons x c3 =>
      simp only [List.cons_append, List.cons.injEq] at hsuf
      obtain ⟨rfl, hsuf2⟩ := hsuf
      obtain ⟨p1, p, p2, hp, he, hq⟩ := h1 pre d c3 (by rw [hl1]) hb
      exact ⟨p1, p, p2, hp, he, hq⟩

mutual
/-- Depth sequences produced by the flattener are parent-linked: each
record's depth is one more than that of its tree parent, the nearest
preceding shallower record. -/
theorem processTree_parentLinked : (c : RawComment) → (d : Nat) →
    ParentLinked d ((processTree c d).1.map (fun r => r.depth))
  | .mk info replies, d => by
    cases hf : firstFailure replies with
    | some e =>
      simp only [processTree, hf, List.map_cons, List.map_nil]
      exact parentLinked_tree d [] (by simp) (parentLinked_nil _)
    | none =>
      have ihf := processForest_parentLinked replies (d + 1)
      have hge := processForest_depth_ge replies (d + 1)
      simp only [processTree, hf, List.map_cons]
      exact parentLinked_tree d _ (by simpa using fun q hq => hge q hq) ihf

theorem processForest_parentLinked : (f : ReplyForest) → (d : Nat) →
    ParentLinked d ((processForest f d).1.map (fun r => r.depth))
  | .nil, d => by simpa [processForest] using parentLinked_nil d
  | .consComment c rest, d => by
    have ih1 := processTree_parentLinked c d
    have ih2 := processForest_parentLinked rest d
    simp only [processForest, List.map_append]
    refine parentLinked_append d _ _ ih1 ih2 ?_
    intro x hx
    have := processForest_head_depth rest d x hx
    omega
  | .consMoreOk cs rest, d => by
    have ih1 := processResolved_parentLinked cs d
    have ih2 := processForest_parentLinked rest d
    simp only [processForest, List.map_append]
    refine parentLinked_append d _ _ ih1 ih2 ?_
    intro x hx
    have := processForest_head_depth rest d x hx
    omega
  | .consMoreErr e rest, d => by
    have ih := processForest_parentLinked rest d
    simpa [processForest] using ih

theorem processResolved_parentLinked : (cs : ResolvedComments) → (d : Nat) →
    ParentLinked d ((processResolved cs d).1.map (fun r => r.depth))
  | .nil, d => by simpa [processResolved] using parentLinked_nil d
  | .cons c rest, d => by
    have ih1 := processTree_parentLinked c d
    have ih2 := processResolved_parentLinked rest d
    simp only [processResolved, List.map_append]
    refine parentLinked_append d _ _ ih1 ih2 ?_
    intro x hx
    have := processResolved_head_depth rest d x hx
    omega

/-- The first record of a forest flattening, if any, sits exactly at the
requested depth. -/
theorem processForest_head_depth : (f : ReplyForest) → (d : Nat) →
    ∀ x, ((processForest f d).1.map (fun r => r.depth)).head? = some x → x = d
  | .nil, d => by simp [processForest]
  | .consComment c rest, d => by
    intro x hx
    obtain ⟨t, ht, _⟩ := processTree_head_cons c d
    simp only [processForest, List.map_append, ht] at hx
    simp only [List.map_cons, List.cons_append, List.head?_cons, Option.some.injEq] at hx
    exact hx.symm
  | .consMoreOk cs rest, d => by
    intro x hx
    simp only [processForest, List.map_append, List.head?_append] at hx
    rcases ha : ((processResolved cs d).1.map (fun r => r.depth)).head? with _ | y
    · rw [ha, Option.none_or] at hx
      exact processForest_head_depth rest d x hx
    · rw [ha, Option.or_some] at hx
      cases hx
      exact processResolved_head_depth cs d x ha
  | .consMoreErr e rest, d => by
    intro x hx
    exact processForest_head_depth rest d x (by simpa [processForest] using hx)

theorem processResolved_head_depth : (cs : ResolvedComments) → (d : Nat) →
    ∀ x, ((processResolved cs d).1.map (fun r => r.depth)).head? = some x → x = d
  | .nil, d => by simp [processResolved]
  | .cons c rest, d => by
    intro x hx
    obtain ⟨t, ht, _⟩ := processTree_head_cons c d
    simp only [processResolved, List.map_append, ht] at hx
    simp only [List.map_cons, List.cons_append, List.head?_cons, Option.some.injEq] at hx
    exact hx.symm
end

/-- Each tree flattened at depth 0 contributes exactly one depth-0 record:
its root. -/
theorem processTree_count_zero (c : RawComment) :
    ((processTree c 0).1.filter (fun r => r.depth == 0)).length = 1 := by
  obtain ⟨t, ht, hq⟩ := processTree_head_cons c 0
  rw [ht, List.filter_cons_of_pos (by simp)]
  have hnil : t.filter (fun r => r.depth == 0) = [] := by
    rw [List.filter_eq_nil_iff]
    intro q hqt
    have := hq q hqt
    simp only [beq_iff_eq]
    omega
  simp [hnil]

/-- Flattening a list of trees at depth 0 yields one depth-0 record per
tree. -/
theorem flatTrees_count_zero (tops : List RawComment) :
    ((flatTrees tops 0).1.filter (fun r => r.depth == 0)).length = tops.length := by
  induction tops with
  | nil => simp [flatTrees]
  | cons c rest ih =>
    rw [flatTrees_cons]
    simp only [List.filter_append, List.length_append, ih, processTree_count_zero,
      List.length_cons]
    omega

/-- C2: for every flattened result of `scrape_submission` on a thread with
pairwise distinct comment ids, no record appears twice (so the length
equals the number of distinct ids visited), every record's depth is one
more than its tree parent's depth (the nearest preceding shallower
record), and the depth-0 records are exactly the top-level comments. -/
theorem scrape_comment_invariants (s : Submission)
    (h : (ReplyForest.allIds s.comments).Nodup) :
    ((scrapedComments s).map (fun r => r.id)).Nodup ∧
    ((scrapedComments s).map (fun r => r.id)).dedup.length = (scrapedComments s).length ∧
    ParentLinked 0 ((scrapedComments s).map (fun r => r.depth)) ∧
    ((scrapedComments s).filter (fun r => r.depth == 0)).length = topLevelCount s := by
  cases hr : replaceMore s.comments with
  | error e =>
    have hsc : scrapedComments s = [] := by simp [scrapedComments, scrape_submission, hr]
    simp [hsc, topLevelCount, hr, parentLinked_nil]
  | ok tops =>
    have hsc : scrapedComments s = (flatTrees tops 0).1 := by
      simp [scrapedComments, scrape_submission, hr]
    have hbridge : (flatTrees tops 0).1 = (processForest s.comments 0).1 := by
      rw [processForest_ok s.comments 0 tops hr]
    have hnd : ((processForest s.comments 0).1.map (fun r => r.id)).Nodup :=
      List.Nodup.sublist (processForest_ids_sublist s.comments 0) h
    refine ⟨?_, ?_, ?_, ?_⟩
    · rw [hsc, hbridge]; exact hnd
    · rw [hsc, hbridge, List.Nodup.dedup hnd, List.length_map]
    · rw [hsc, hbridge]; exact processForest_parentLinked s.comments 0
    · rw [hsc, flatTrees_count_zero]
      simp [topLevelCount, hr]

/-- A small fully resolving thread. -/
def demoSub : Submission := { info := demoPost, comments := .consComment topComment .nil }

/-- Witness for C2 at a concrete thread. -/
theorem scrape_comment_invariants_witness :
    ((scrapedComments demoSub).map (fun r => r.id)).Nodup ∧
    ((scrapedComments demoSub).map (fun r => r.id)).dedup.length = (scrapedComments demoSub).length ∧
    ParentLinked 0 ((scrapedComments demoSub).map (fun r => r.depth)) ∧
    ((scrapedComments demoSub).filter (fun r => r.depth == 0)).length = topLevelCount demoSub :=
  scrape_comment_invariants demoSub (by decide)

/-- Translation of `search_user` (lines 245-248): the list comprehension
keeping the comments whose lowercased author equals the lowercased query. -/
def search_user (results : ScrapeResult) (username : String) : List ExtractedComment :=
  results.comments.filter (fun c => c.author.toLower == username.toLower)

/-- C6: `search_user` returns exactly the ordered subsequence of the
result's comments whose author, case-folded, equals the queried name
case-folded (each matching record kept with its multiplicity), and an
empty sequence - not an error - when no author matches. -/
theorem search_user_spec (results : ScrapeResult) (username : String) :
    List.Sublist (search_user results username) results.comments ∧
    (∀ c ∈ search_user results username, c.author.toLower = username.toLower) ∧
    (∀ c ∈ results.comments, c.author.toLower = username.toLower →
      c ∈ search_user results username) ∧
    (∀ c : ExtractedComment, (search_user results username).count c =
      if c.author.toLower = username.toLower then results.comments.count c else 0) ∧
    ((∀ c ∈ results.comments, c.author.toLower ≠ username.toLower) →
      search_user results username = []) := by
  refine ⟨List.filter_sublist _, ?_, ?_, ?_, ?_⟩
  · intro c hc
    simpa using (List.mem_filter.mp hc).2
  · intro c hc he
    exact List.mem_filter.mpr ⟨hc, by simpa using he⟩
  · intro c
    by_cases he : c.author.toLower = username.toLower
    · rw [if_pos he]
      exact List.count_filter (by simpa using he)
    · rw [if_neg he, List.count_eq_zero]
      intro hc
      exact he (by simpa using (List.mem_filter.mp hc).2)
  · intro hnone
    rw [search_user, List.filter_eq_nil_iff]
    intro c hc
    simpa using hnone c hc

/-- A concrete scrape result used by the witnesses. -/
def demoResult : ScrapeResult :=
  { post := extract_post_data demoPost, comments := (flatTrees [topComment] 0).1,
    total_comments := 4, scraped_at := "t" }

/-- Witness for C6 at a concrete result and query. -/
theorem search_user_spec_witness :
    List.Sublist (search_user demoResult "ALICE") demoResult.comments ∧
    (∀ c ∈ search_user demoResult "ALICE", c.author.toLower = "ALICE".toLower) ∧
    (∀ c ∈ demoResult.comments, c.author.toLower = "ALICE".toLower →
      c ∈ search_user demoResult "ALICE") ∧
    (∀ c : ExtractedComment, (search_user demoResult "ALICE").count c =
      if c.author.toLower = "ALICE".toLower then demoResult.comments.count c else 0) ∧
    ((∀ c ∈ demoResult.comments, c.author.toLower ≠ "ALICE".toLower) →
      search_user demoResult "ALICE" = []) :=
  search_user_spec demoResult "ALICE"

/-- C7: the record extractors resolve a missing/deleted author to the
fixed placeholder string `[deleted]`, for comment and post objects alike;
being plain functions of the input record, they cannot fail or mutate
their argument. -/
theorem deleted_author_placeholder (ci : CommentInfo) (p : PostInfo)
    (h1 : ci.author = none) (h2 : p.author = none) :
    (extract_comment_data ci).author = "[deleted]" ∧
    (extract_post_data p).author = "[deleted]" := by
  constructor <;> simp [extract_comment_data, extract_post_data, h1, h2]

/-- A comment record whose author is deleted. -/
def deletedInfo : CommentInfo := { mkInfo "del" with author := none }

/-- A post record whose author is deleted. -/
def deletedPost : PostInfo := { demoPost with author := none }

/-- Witness for C7 at concrete records. -/
theorem deleted_author_placeholder_witness :
    (extract_comment_data deletedInfo).author = "[deleted]" ∧
    (extract_post_data deletedPost).author = "[deleted]" :=
  deleted_author_placeholder deletedInfo deletedPost rfl rfl

/-- The hard-coded user agent placeholder from `main` (line 265). -/
def PLACEHOLDER_USER_AGENT : String := "python:reddit_scraper:v1.0 (by /u/YOUR_USERNAME)"

/-- What happens at startup: either the process exits with a status code,
or execution reaches the `RedditThreadScraper` constructor - the first
point that can perform network activity. -/
inductive StartupOutcome where
  | exited (code : Nat)
  | clientInitialized (client_id client_secret user_agent : String)
deriving Repr, DecidableEq

/-- Translation of the credential validation in `main` (lines 278-295):
the check compares only `CLIENT_ID` and `CLIENT_SECRET` against their
placeholder texts and calls `sys.exit(1)` after printing instructions;
the user agent is not examined. -/
def main_startup (client_id client_secret user_agent : String) : StartupOutcome :=
  if client_id == "YOUR_CLIENT_ID_HERE" || client_secret == "YOUR_CLIENT_SECRET_HERE" then
    .exited 1
  else
    .clientInitialized client_id client_secret user_agent

/-- C8 counterexample: with a real-looking client id and secret but the
user agent still holding its placeholder value, the process does not
exit - it proceeds to initialize the API client, refuting the claim that
a placeholder in any of the three credential strings aborts startup. -/
theorem placeholder_user_agent_not_rejected :
    main_startup "abc123" "def456" PLACEHOLDER_USER_AGENT =
      StartupOutcome.clientInitialized "abc123" "def456" PLACEHOLDER_USER_AGENT := rfl

/-- C8 (amended): startup exits with status 1 - before the API client is
initialized, hence before any network call - exactly when the client id
or the client secret still holds its placeholder value; the user agent is
never validated. -/
theorem credential_gate_spec (client_id client_secret user_agent : String) :
    main_startup client_id client_secret user_agent = .exited 1 ↔
      (client_id = "YOUR_CLIENT_ID_HERE" ∨ client_secret = "YOUR_CLIENT_SECRET_HERE") := by
  by_cases h1 : client_id = "YOUR_CLIENT_ID_HERE" <;>
    by_cases h2 : client_secret = "YOUR_CLIENT_SECRET_HERE" <;>
    simp [main_startup, h1, h2]

/-- Python string slicing `s[:n]`: the first `n` characters. -/
def pythonSlice (n : Nat) (s : String) : String := String.mk (s.data.take n)

/-- Stable insertion: the new element passes over exactly the
smaller-scored elements, so it lands before every equal-scored element
that was inserted earlier, i.e. before original-later equal peers. -/
def insertByScore (x : ExtractedComment) : List ExtractedComment → List ExtractedComment
  | [] => [x]
  | y :: ys => if y.score ≤ x.score then x :: y :: ys else y :: insertByScore x ys

/-- Model of `sorted(results['comments'], key=lambda x: x['score'],
reverse=True)` (line 231).  Python's `sorted` is *the* stable sort for
the given key; on a descending score key its output is uniquely
determined (scores non-increasing, equal scores in original order), and
this right-fold of stable insertions computes exactly that output. -/
def sortByScoreDesc (l : List ExtractedComment) : List ExtractedComment :=
  l.foldr insertByScore []

theorem length_insertByScore (x : ExtractedComment) : (l : List ExtractedComment) →
    (insertByScore x l).length = l.length + 1
  | [] => rfl
  | y :: ys => by
    by_cases h : y.score ≤ x.score <;>
      simp [insertByScore, h, length_insertByScore x ys]

theorem length_sortByScoreDesc (l : List ExtractedComment) :
    (sortByScoreDesc l).length = l.length := by
  induction l with
  | nil => rfl
  | cons a rest ih => simp [sortByScoreDesc, List.foldr_cons, length_insertByScore] at ih ⊢; omega

theorem mem_insertByScore (x z : ExtractedComment) : (l : List ExtractedComment) →
    (z ∈ insertByScore x l ↔ z = x ∨ z ∈ l)
  | [] => by simp [insertByScore]
  | y :: ys => by
    by_cases h : y.score ≤ x.score
    · simp [insertByScore, h]
    · simp only [insertByScore, if_neg h, List.mem_cons, mem_insertByScore x z ys]
      tauto

theorem pairwise_insertByScore (x : ExtractedComment) :
    (l : List ExtractedComment) →
    List.Pairwise (fun a b => b.score ≤ a.score) l →
    List.Pairwise (fun a b => b.score ≤ a.score) (insertByScore x l)
  | [], _ => by simp [insertByScore]
  | y :: ys, hp => by
    obtain ⟨hy, hys⟩ := List.pairwise_cons.mp hp
    by_cases h : y.score ≤ x.score
    · rw [insertByScore, if_pos h]
      refine List.pairwise_cons.mpr ⟨?_, hp⟩
      intro z hz
      rcases List.mem_cons.mp hz with rfl | hz2
      · exact h
      · exact le_trans (hy z hz2) h
    · rw [insertByScore, if_neg h]
      refine List.pairwise_cons.mpr ⟨?_, pairwise_insertByScore x ys hys⟩
      intro z hz
      rcases (mem_insertByScore x z ys).mp hz with rfl | hz2
      · omega
      · exact hy z hz2

theorem sorted_sortByScoreDesc (l : List ExtractedComment) :
    List.Pairwise (fun a b => b.score ≤ a.score) (sortByScoreDesc l) := by
  induction l with
  | nil => simp [sortByScoreDesc]
  | cons a rest ih => exact pairwise_insertByScore a _ ih

theorem filter_insertByScore (x : ExtractedComment) (z : Int) :
    (l : List ExtractedComment) →
    (insertByScore x l).filter (fun c => c.score == z) =
      if x.score == z then x :: l.filter (fun c => c.score == z)
      else l.filter (fun c => c.score == z)
  | [] => by
    by_cases h : x.score = z <;> simp [insertByScore, h]
  | y :: ys => by
    by_cases h : y.score ≤ x.score
    · rw [insertByScore, if_pos h]
      by_cases hx : x.score = z
      · simp [hx]
      · simp [List.filter_cons, hx]
    · rw [insertByScore, if_neg h]
      have ih := filter_insertByScore x z ys
      by_cases hx : x.score = z
      · have hy : (y.score == z) = false := by
          simp only [beq_eq_false_iff_ne, ne_eq]
          omega
        simp [List.filter_cons, hy, ih, hx]
      · simp [List.filter_cons, ih, hx]

/-- Stability of the model sort: each score class comes out exactly as it
went in. -/
theorem filter_sortByScoreDesc (l : List ExtractedComment) (z : Int) :
    (sortByScoreDesc l).filter (fun c => c.score == z) =
      l.filter (fun c => c.score == z) := by
  induction l with
  | nil => rfl
  | cons a rest ih =>
    show (insertByScore a (sortByScoreDesc rest)).filter _ = _
    rw [filter_insertByScore, List.filter_cons, ih]

/-- One rendered entry of the top-comments summary (lines 237-241):
author, score, depth, body sliced to 500 characters, permalink. -/
structure TopEntry where
  author : String
  score : Int
  depth : Nat
  body : String
  permalink : String
deriving Repr, DecidableEq

/-- The data rendered for one comment in the summary. -/
def toTopEntry (c : ExtractedComment) : TopEntry :=
  { author := c.author, score := c.score, depth := c.depth,
    body := pythonSlice 500 c.body, permalink := c.permalink }

/-- The entries of the top-comments summary file (lines 229-241): sort by
score descending, keep the first 50 (`sorted_comments[:50]`), slice each
body to 500 characters (`comment['body'][:500]`). -/
def top_comments_summary (results : ScrapeResult) : List TopEntry :=
  ((sortByScoreDesc results.comments).take 50).map toTopEntry

/-- C5: the top-comments summary is sorted descending by score, keeps at
most 50 entries (exactly 50 when enough comments exist), truncates every
rendered body to at most 500 characters, and is stable on ties: each
score class of the summary is a prefix of the corresponding score class
of the original comment sequence, in original order. -/
theorem top_summary_spec (results : ScrapeResult) :
    (top_comments_summary results).length = min 50 results.comments.length ∧
    List.Pairwise (fun a b => b.score ≤ a.score) (top_comments_summary results) ∧
    (∀ e ∈ top_comments_summary results, e.body.length ≤ 500) ∧
    (∀ z : Int, ∃ t, (top_comments_summary results).filter (fun e => e.score == z) ++ t =
      (results.comments.filter (fun c => c.score == z)).map toTopEntry) := by
  refine ⟨?_, ?_, ?_, ?_⟩
  · simp [top_comments_summary, List.length_take, length_sortByScoreDesc]
  · have hs := sorted_sortByScoreDesc results.comments
    have ht := hs.sublist (List.take_sublist 50 _)
    rw [top_comments_summary, List.pairwise_map]
    exact ht
  · intro e he
    obtain ⟨c, _, rfl⟩ := List.mem_map.mp he
    simp only [toTopEntry, pythonSlice, String.length_mk, List.length_take]
    omega
  · intro z
    have hsplit : sortByScoreDesc results.comments =
        (sortByScoreDesc results.comments).take 50 ++ (sortByScoreDesc results.comments).drop 50 :=
      (List.take_append_drop 50 _).symm
    refine ⟨((sortByScoreDesc results.comments).drop 50).filter
        (fun c => c.score == z) |>.map toTopEntry, ?_⟩
    have hcomp : (fun e : TopEntry => e.score == z) ∘ toTopEntry =
        (fun c : ExtractedComment => c.score == z) := rfl
    rw [top_comments_summary, List.filter_map, hcomp, ← List.map_append, ← List.filter_append,
      ← hsplit, filter_sortByScoreDesc]

/-- Witness for C5 at a concrete result. -/
theorem top_summary_spec_witness :
    (top_comments_summary demoResult).length = min 50 demoResult.comments.length ∧
    List.Pairwise (fun a b => b.score ≤ a.score) (top_comments_summary demoResult) ∧
    (∀ e ∈ top_comments_summary demoResult, e.body.length ≤ 500) ∧
    (∀ z : Int, ∃ t, (top_comments_summary demoResult).filter (fun e => e.score == z) ++ t =
      (demoResult.comments.filter (fun c => c.score == z)).map toTopEntry) :=
  top_summary_spec demoResult

/-- Python `"x" * n`: a run of one repeated character. -/
def repeatChar (c : Char) (n : Nat) : String := String.mk (List.replicate n c)

/-- Models the Python format spec `:.1f` applied to a float; the exact
rounding is irrelevant to every claim. -/
def fmtFloat1 (x : Float) : String := toString x

/-- Python `s.replace('"', '""')` at the character level: every double
quote is doubled, all other characters are kept. -/
def escQuote : List Char → List Char
  | [] => []
  | c :: rest => if c = '"' then '"' :: '"' :: escQuote rest else c :: escQuote rest

/-- Python `s.replace('\n', ' ')` at the character level. -/
def nlToSpace : List Char → List Char :=
  List.map (fun c => if c = '\n' then ' ' else c)

/-- Python f-string rendering of a bool: `True` or `False`. -/
def pyBool (b : Bool) : String := if b then "True" else "False"

/-- One CSV data row (lines 221-225): id, author, timestamp and body are
quoted; quotes are doubled in author and body; body newlines become
spaces; score, depth and is_submitter are written bare; the row ends with
a newline. -/
def csvLine (c : ExtractedComment) : List Char :=
  '"' :: c.id.data ++ '"' :: ',' :: '"' :: escQuote c.author.data ++ '"' :: ',' ::
  (toString c.score).data ++ ',' :: (toString c.depth).data ++ ',' ::
  (pyBool c.is_submitter).data ++ ',' :: '"' :: c.created_datetime.data ++ '"' :: ',' ::
  '"' :: nlToSpace (escQuote c.body.data) ++ ['"', '\n']

/-- The CSV header row (line 220). -/
def csvHeader : String := "id,author,score,depth,is_submitter,created_datetime,body\n"

/-- The CSV file content (lines 217-225): header row, then one row per
comment in sequence order. -/
def csvFileContent (results : ScrapeResult) : String :=
  String.mk (csvHeader.data ++ (results.comments.map csvLine).flatten)

/-- One comment block of the text transcript (lines 196-213). -/
def txtCommentBlock (c : ExtractedComment) : String :=
  let indent := repeatChar ' ' (2 * c.depth)
  indent ++ "┌─ [" ++ toString c.score ++ "] u/" ++ c.author ++
  (if c.is_submitter then " [OP]" else "") ++
  (match c.distinguished with
   | some d => " [" ++ d ++ "]"
   | none => "") ++
  " (depth: " ++ toString c.depth ++ ")\n" ++
  String.join ((c.body.splitOn "\n").map (fun line => indent ++ "│  " ++ line ++ "\n")) ++
  indent ++ "│  [ID: " ++ c.id ++ "]\n" ++ indent ++ "└─\n\n"

/-- The text transcript file (lines 173-213): post header block, optional
self text, then each comment indented proportionally to its depth. -/
def txtFileContent (results : ScrapeResult) : String :=
  let post := results.post
  repeatChar '=' 80 ++ "\n" ++
  "TITLE: " ++ post.title ++ "\n" ++
  "AUTHOR: u/" ++ post.author ++ "\n" ++
  "SUBREDDIT: r/" ++ post.subreddit ++ "\n" ++
  "SCORE: " ++ toString post.score ++ " (" ++ fmtFloat1 (post.upvote_ratio * 100) ++
  "% upvoted)\n" ++
  "URL: " ++ post.url ++ "\n" ++
  "POSTED: " ++ post.created_datetime ++ "\n" ++
  "COMMENTS: " ++ toString post.num_comments ++ "\n" ++
  "PERMALINK: https://reddit.com" ++ post.permalink ++ "\n" ++
  repeatChar '=' 80 ++ "\n\n" ++
  (if post.selftext ≠ "" then post.selftext ++ "\n\n" else "") ++
  repeatChar '-' 80 ++ "\n" ++
  "COMMENTS (" ++ toString results.comments.length ++ " total)\n" ++
  repeatChar '-' 80 ++ "\n\n" ++
  String.join (results.comments.map txtCommentBlock)

/-- Models `json.dump(results, f, indent=2, ensure_ascii=False)` (line
170): a complete structural dump of the result; the derived `Repr`
rendering stands in for the JSON concrete syntax, which no claim
inspects. -/
def jsonFileContent (results : ScrapeResult) : String := reprStr results

/-- One numbered block of the top-comments summary (lines 237-241). -/
def topEntryBlock (i : Nat) (e : TopEntry) : String :=
  toString i ++ ". u/" ++ e.author ++ " (Score: " ++ toString e.score ++ ", Depth: " ++
  toString e.depth ++ ")\n" ++ "   " ++ e.body ++ "\n" ++
  "   https://reddit.com" ++ e.permalink ++ "\n" ++ repeatChar '-' 80 ++ "\n\n"

/-- The top-comments summary file (lines 229-243), entries numbered from
1 by `enumerate(..., 1)`. -/
def topFileContent (results : ScrapeResult) : String :=
  "TOP 50 COMMENTS BY SCORE\n" ++ repeatChar '=' 80 ++ "\n\n" ++
  String.join (((top_comments_summary results).enum).map
    (fun p => topEntryBlock (p.1 + 1) p.2))

/-- The result object `save_results` reads and the files it has written:
an explicit state on which a mutating exporter could be expressed. -/
structure ExportState where
  result : ScrapeResult
  files : List (String × String)

/-- The four files `save_results` writes for a given output name. -/
def save_results_files (results : ScrapeResult) (outName : String) : List (String × String) :=
  [(outName ++ ".json", jsonFileContent results),
   (outName ++ ".txt", txtFileContent results),
   (outName ++ ".csv", csvFileContent results),
   (outName ++ "_top_comments.txt", topFileContent results)]

/-- Translation of `save_results` (lines 164-243) as a state transformer:
each of the four exporters in turn reads the held result and appends one
file; none writes back into the result - every Python operation used
(`sorted`, slicing, `str.replace`, f-strings) returns fresh values. -/
def save_results (st : ExportState) (outName : String) : ExportState :=
  let st1 : ExportState :=
    { result := st.result
      files := st.files ++ [(outName ++ ".json", jsonFileContent st.result)] }
  let st2 : ExportState :=
    { result := st1.result
      files := st1.files ++ [(outName ++ ".txt", txtFileContent st1.result)] }
  let st3 : ExportState :=
    { result := st2.result
      files := st2.files ++ [(outName ++ ".csv", csvFileContent st2.result)] }
  { result := st3.result
    files := st3.files ++ [(outName ++ "_top_comments.txt", topFileContent st3.result)] }

/-- C9: running all four exporters leaves the `ScrapeResult` unchanged -
post mapping, comment sequence, order and every field - and the written
files are pure functions of the result and the output name alone. -/
theorem save_results_frame (st : ExportState) (outName : String) :
    (save_results st outName).result = st.result ∧
    (save_results st outName).files = st.files ++ save_results_files st.result outName := by
  refine ⟨rfl, ?_⟩
  simp [save_results, save_results_files]

/-- Reference decimal rendering of a natural number, most significant
digit first. -/
def natChars (n : Nat) : List Char :=
  if n < 10 then [Nat.digitChar n]
  else natChars (n / 10) ++ [Nat.digitChar (n % 10)]
termination_by n
decreasing_by exact Nat.div_lt_self (by omega) (by omega)

theorem digitChar_isDigit (m : Nat) (h : m < 10) : (Nat.digitChar m).isDigit = true := by
  interval_cases m <;> decide

theorem digitChar_val (m : Nat) (h : m < 10) : (Nat.digitChar m).toNat - 48 = m := by
  interval_cases m <;> decide

theorem natChars_ne_nil (n : Nat) : natChars n ≠ [] := by
  rw [natChars]
  split <;> simp

theorem natChars_isDigit (n : Nat) : ∀ c ∈ natChars n, c.isDigit = true := by
  induction n using Nat.strong_induction_on with
  | _ n ih =>
    rw [natChars]
    split
    · intro c hc
      rw [List.mem_singleton] at hc
      subst hc
      exact digitChar_isDigit n (by omega)
    · intro c hc
      rcases List.mem_append.mp hc with h1 | h2
      · exact ih (n / 10) (Nat.div_lt_self (by omega) (by omega)) c h1
      · rw [List.mem_singleton] at h2
        subst h2
        exact digitChar_isDigit (n % 10) (Nat.mod_lt n (by omega))

/-- `Nat.toDigitsCore` agrees with the reference rendering when given
enough fuel. -/
theorem toDigitsCore_eq_natChars : (fuel n : Nat) → (acc : List Char) → n < 10 ^ (fuel + 1) →
    Nat.toDigitsCore 10 (fuel + 1) n acc = natChars n ++ acc
  | 0, n, acc, h => by
    have hn : n < 10 := by simpa using h
    have hd : n / 10 = 0 := Nat.div_eq_of_lt hn
    rw [Nat.toDigitsCore]
    simp only [hd, if_pos rfl]
    rw [natChars, if_pos hn, Nat.mod_eq_of_lt hn]
    rfl
  | fuel + 1, n, acc, h => by
    by_cases hd : n / 10 = 0
    · have hn : n < 10 := by omega
      rw [Nat.toDigitsCore]
      simp only [hd, if_pos]
      rw [natChars, if_pos hn, Nat.mod_eq_of_lt hn]
      rfl
    · have hn : ¬ n < 10 := by omega
      have hlt : n / 10 < 10 ^ (fuel + 1) := by
        rw [Nat.div_lt_iff_lt_mul (by omega)]
        calc n < 10 ^ (fuel + 1 + 1) := h
        _ = 10 ^ (fuel + 1) * 10 := by ring
      rw [Nat.toDigitsCore]
      rw [if_neg hd]
      rw [toDigitsCore_eq_natChars fuel (n / 10) ((n % 10).digitChar :: acc) hlt]
      conv_rhs => rw [natChars]
      rw [if_neg hn]
      simp

theorem toDigits_eq_natChars (n : Nat) : Nat.toDigits 10 n = natChars n := by
  have hpow : n < 10 ^ (n + 1) := by
    calc n < 2 ^ n := Nat.lt_two_pow n
    _ ≤ 10 ^ n := Nat.pow_le_pow_left (by omega) n
    _ ≤ 10 ^ (n + 1) := Nat.pow_le_pow_right (by omega) (by omega)
  rw [Nat.toDigits, toDigitsCore_eq_natChars n n [] hpow, List.append_nil]

/-- The characters of the decimal rendering of a natural number. -/
theorem toString_nat_data (n : Nat) : (toString n).data = natChars n := by
  show (Nat.repr n).data = natChars n
  rw [Nat.repr, toDigits_eq_natChars]
  rfl

/-- How a CSV consumer reads a numeric cell as a natural number. -/
def cellToNat (l : List Char) : Nat :=
  l.foldl (fun a c => a * 10 + (c.toNat - 48)) 0

/-- How a CSV consumer reads a numeric cell as an integer. -/
def cellToInt : List Char → Int
  | [] => 0
  | c :: rest => if c = '-' then - (cellToNat rest : Int) else (cellToNat (c :: rest) : Int)

theorem foldl_natChars (n : Nat) (a : Nat) :
    (natChars n).foldl (fun a c => a * 10 + (c.toNat - 48)) a = a * 10 ^ (natChars n).length + n := by
  induction n using Nat.strong_induction_on generalizing a with
  | _ n ih =>
    rw [natChars]
    split
    · rename_i hn
      simp [digitChar_val n (by omega)]
    · rename_i hn
      rw [List.foldl_append]
      rw [ih (n / 10) (Nat.div_lt_self (by omega) (by omega)) a]
      simp only [List.foldl_cons, List.foldl_nil, List.length_append, List.length_singleton]
      rw [digitChar_val (n % 10) (Nat.mod_lt n (by omega))]
      have : a * 10 ^ ((natChars (n / 10)).length + 1) =
          (a * 10 ^ (natChars (n / 10)).length) * 10 := by ring
      rw [this]
      omega

/-- Round trip for natural numbers through their decimal rendering. -/
theorem cellToNat_toString (n : Nat) : cellToNat (toString n).data = n := by
  rw [toString_nat_data, cellToNat, foldl_natChars]
  simp

/-- Round trip for integers through their decimal rendering. -/
theorem cellToInt_toString (z : Int) : cellToInt (toString z).data = z := by
  cases z with
  | ofNat m =>
    show cellToInt (toString m).data = (m : Int)
    rw [toString_nat_data]
    cases hm : natChars m with
    | nil => exact absurd hm (natChars_ne_nil m)
    | cons c rest =>
      have hc : c.isDigit = true := natChars_isDigit m c (by rw [hm]; exact List.mem_cons_self c rest)
      have hcm : c ≠ Char.ofNat 45 := by
        intro h
        subst h
        simp [Char.isDigit] at hc
      rw [cellToInt]
      rw [if_neg (by exact_mod_cast hcm)]
      rw [← hm, ← toString_nat_data, cellToNat_toString]
  | negSucc m =>
    show cellToInt ("-" ++ toString (m + 1)).data = Int.negSucc m
    rw [String.data_append]
    have : ("-" : String).data = [Char.ofNat 45] := rfl
    rw [this]
    simp only [List.cons_append, List.nil_append]
    rw [cellToInt, if_pos rfl, cellToNat_toString]
    rw [Int.negSucc_eq]
    omega

/-- Reads the remainder of a quoted CSV field, the opening quote already
consumed: a doubled quote stands for a literal quote, a lone quote closes
the field.  Returns the decoded field and the unconsumed rest, or `none`
for an unterminated field. -/
def readQuoted : List Char → Option (List Char × List Char)
  | [] => none
  | c :: rest =>
    if c = '"' then
      match rest with
      | [] => some ([], [])
      | c2 :: rest2 =>
        if c2 = '"' then (readQuoted rest2).map (fun p => ('"' :: p.1, p.2))
        else some ([], c2 :: rest2)
    else (readQuoted rest).map (fun p => (c :: p.1, p.2))

/-- Reads a bare CSV field: everything up to the next comma or newline. -/
def readUnquoted : List Char → List Char × List Char
  | [] => ([], [])
  | c :: rest =>
    if c = ',' ∨ c = '\n' then ([], c :: rest)
    else
      let p := readUnquoted rest
      (c :: p.1, p.2)

/-- Reads one CSV field, quoted or bare. -/
def readField : List Char → Option (List Char × List Char)
  | [] => some ([], [])
  | c :: rest =>
    if c = '"' then readQuoted rest
    else some (readUnquoted (c :: rest))

/-- Reads one CSV record, `fuel` bounding the number of fields: fields
separated by commas, record closed by a newline or the end of input. -/
def readRowF : Nat → List Char → Option (List (List Char) × List Char)
  | 0, _ => none
  | fuel + 1, l =>
    match readField l with
    | none => none
    | some (f, rest) =>
      match rest with
      | [] => some ([f], [])
      | c :: rest2 =>
        if c = '\n' then some ([f], rest2)
        else if c = ',' then (readRowF fuel rest2).map (fun p => (f :: p.1, p.2))
        else none

/-- Reads one CSV record; a record has at most as many fields as
characters plus one. -/
def readRow (l : List Char) : Option (List (List Char) × List Char) :=
  readRowF (l.length + 1) l

/-- Reads a sequence of CSV records until the input is exhausted, `fuel`
bounding the number of records. -/
def readRows : Nat → List Char → Option (List (List (List Char)))
  | 0, _ => none
  | fuel + 1, l =>
    if l = [] then some []
    else
      match readRow l with
      | none => none
      | some (row, r2) => (readRows fuel r2).map (fun rs => row :: rs)

/-- A standard CSV parser - rows of fields, quotes escaped by doubling,
quoted fields free to contain commas and newlines - applied to a whole
file.  This is the consumer side of the round-trip claim. -/
def parseCSV (s : String) : Option (List (List (List Char))) :=
  readRows (s.data.length + 1) s.data

theorem readQuoted_length : (l : List Char) → (f r : List Char) →
    readQuoted l = some (f, r) → r.length < l.length
  | [], f, r => by simp [readQuoted]
  | c :: rest, f, r => by
    intro h
    unfold readQuoted at h
    split at h
    · split at h
      · simp only [Option.some.injEq, Prod.mk.injEq] at h
        simp [← h.2]
      · rename_i c2 rest2
        split at h
        · obtain ⟨p, hp, hgp⟩ := Option.map_eq_some'.mp h
          have hlt := readQuoted_length rest2 p.1 p.2 (by rw [hp])
          have h2 : p.2 = r := congrArg Prod.snd hgp
          rw [← h2]
          simp only [List.length_cons]
          omega
        · simp only [Option.some.injEq, Prod.mk.injEq] at h
          rw [← h.2]
          simp only [List.length_cons]
          omega
    · obtain ⟨p, hp, hgp⟩ := Option.map_eq_some'.mp h
      have hlt := readQuoted_length rest p.1 p.2 (by rw [hp])
      have h2 : p.2 = r := congrArg Prod.snd hgp
      rw [← h2]
      simp only [List.length_cons]
      omega

theorem readUnquoted_length : (l : List Char) → (readUnquoted l).2.length ≤ l.length
  | [] => by simp [readUnquoted]
  | c :: rest => by
    rw [readUnquoted]
    by_cases hc : c = ',' ∨ c = '\n'
    · rw [if_pos hc]
    · rw [if_neg hc]
      have := readUnquoted_length rest
      simp only [List.length_cons]
      omega

theorem readField_length (l : List Char) (f r : List Char) :
    readField l = some (f, r) → r.length ≤ l.length := by
  intro h
  match l, h with
  | [], h => simp [readField] at h; simp [h.2]
  | c :: rest, h =>
    rw [readField] at h
    by_cases hc : c = '"'
    · rw [if_pos hc] at h
      have := readQuoted_length rest f r h
      simp only [List.length_cons]
      omega
    · rw [if_neg hc] at h
      simp only [Option.some.injEq] at h
      have h2 := congrArg Prod.snd h
      simp only at h2
      rw [← h2]
      exact readUnquoted_length (c :: rest)

theorem escQuote_no_quote : (l : List Char) → '"' ∉ l → escQuote l = l
  | [], _ => rfl
  | c :: rest, h => by
    have hc : ¬ c = '"' := fun hc => h (by simp [hc])
    rw [escQuote, if_neg hc, escQuote_no_quote rest (fun hm => h (List.mem_cons_of_mem c hm))]

theorem readQuoted_quote_nil : readQuoted ['"'] = some ([], []) := rfl

theorem readQuoted_quote_cons (c2 : Char) (r2 : List Char) (h : ¬ c2 = '"') :
    readQuoted ('"' :: c2 :: r2) = some ([], c2 :: r2) := by
  simp [readQuoted, h]

theorem readQuoted_quote_quote (r2 : List Char) :
    readQuoted ('"' :: '"' :: r2) = (readQuoted r2).map (fun p => ('"' :: p.1, p.2)) := by
  simp [readQuoted]

theorem readQuoted_other (c : Char) (rest : List Char) (h : ¬ c = '"') :
    readQuoted (c :: rest) = (readQuoted rest).map (fun p => (c :: p.1, p.2)) := by
  conv_lhs => rw [readQuoted.eq_def]
  simp [h]

theorem nlToSpace_escQuote (l : List Char) :
    nlToSpace (escQuote l) = escQuote (nlToSpace l) := by
  induction l with
  | nil => rfl
  | cons c rest ih =>
    have ih2 : List.map (fun c => if c = '\n' then ' ' else c) (escQuote rest) =
        escQuote (List.map (fun c => if c = '\n' then ' ' else c) rest) := ih
    by_cases hc : c = '"'
    · subst hc
      simp [escQuote, nlToSpace, ih2]
    · by_cases hn : c = '\n'
      · subst hn
        simp [escQuote, nlToSpace, hc, ih2]
      · simp [escQuote, nlToSpace, hc, hn, ih2]

/-- Decoding inverts quote-doubling, as long as the closing quote is not
immediately followed by another quote (in the generated CSV it is always
followed by a comma or newline, or ends the file). -/
theorem readQuoted_escQuote : (content rest : List Char) → rest.head? ≠ some '"' →
    readQuoted (escQuote content ++ '"' :: rest) = some (content, rest)
  | [], rest, hr => by
    show readQuoted ('"' :: rest) = some ([], rest)
    match rest, hr with
    | [], _ => exact readQuoted_quote_nil
    | c2 :: r2, hr =>
      exact readQuoted_quote_cons c2 r2 (fun h => hr (by simp [h]))
  | c :: cs, rest, hr => by
    by_cases hc : c = '"'
    · subst hc
      rw [escQuote, if_pos rfl, List.cons_append, List.cons_append]
      rw [readQuoted_quote_quote, readQuoted_escQuote cs rest hr]
      rfl
    · rw [escQuote, if_neg hc, List.cons_append]
      rw [readQuoted_other c _ hc, readQuoted_escQuote cs rest hr]
      rfl

theorem readUnquoted_clean : (f rest : List Char) →
    (∀ c ∈ f, ¬(c = ',' ∨ c = '\n')) →
    (∀ c, rest.head? = some c → (c = ',' ∨ c = '\n')) →
    readUnquoted (f ++ rest) = (f, rest)
  | [], rest, _, hr => by
    match rest, hr with
    | [], _ => rfl
    | c :: r2, hr =>
      show readUnquoted (c :: r2) = ([], c :: r2)
      rw [readUnquoted, if_pos (hr c rfl)]
  | fc :: fr, rest, hf, hr => by
    show readUnquoted (fc :: (fr ++ rest)) = _
    rw [readUnquoted, if_neg (hf fc (List.mem_cons_self fc fr))]
    rw [readUnquoted_clean fr rest (fun c hc => hf c (List.mem_cons_of_mem fc hc)) hr]

theorem readField_quoted (content rest : List Char) (hr : rest.head? ≠ some '"') :
    readField ('"' :: (escQuote content ++ '"' :: rest)) = some (content, rest) := by
  rw [readField, if_pos rfl, readQuoted_escQuote content rest hr]

theorem readField_bare (f rest : List Char) (hne : f ≠ [])
    (hhead : ∀ c, f.head? = some c → ¬ c = '"')
    (hf : ∀ c ∈ f, ¬(c = ',' ∨ c = '\n'))
    (hr : ∀ c, rest.head? = some c → (c = ',' ∨ c = '\n')) :
    readField (f ++ rest) = some (f, rest) := by
  match f, hne with
  | fc :: fr, _ =>
    show readField (fc :: (fr ++ rest)) = some (fc :: fr, rest)
    rw [readField, if_neg (hhead fc rfl)]
    rw [← List.cons_append, readUnquoted_clean (fc :: fr) rest hf hr]

theorem rowStep_quoted (fuel : Nat) (content rest : List Char) :
    readRowF (fuel + 1) ('"' :: (escQuote content ++ '"' :: ',' :: rest)) =
      (readRowF fuel rest).map (fun p => (content :: p.1, p.2)) := by
  have hf := readField_quoted content (',' :: rest) (by simp)
  rw [readRowF, hf]
  simp

theorem rowStep_quoted_last (fuel : Nat) (content rest : List Char) :
    readRowF (fuel + 1) ('"' :: (escQuote content ++ '"' :: '\n' :: rest)) =
      some ([content], rest) := by
  have hf := readField_quoted content ('\n' :: rest) (by simp)
  rw [readRowF, hf]
  simp

theorem rowStep_bare (fuel : Nat) (f rest : List Char) (hne : f ≠ [])
    (hhead : ∀ c, f.head? = some c → ¬ c = '"')
    (hf : ∀ c ∈ f, ¬(c = ',' ∨ c = '\n')) :
    readRowF (fuel + 1) (f ++ ',' :: rest) =
      (readRowF fuel rest).map (fun p => (f :: p.1, p.2)) := by
  have hfld := readField_bare f (',' :: rest) hne hhead hf
    (by intro c hc; simp only [List.head?_cons, Option.some.injEq] at hc; subst hc; left; rfl)
  rw [readRowF, hfld]
  simp

theorem rowStep_bare_last (fuel : Nat) (f rest : List Char) (hne : f ≠ [])
    (hhead : ∀ c, f.head? = some c → ¬ c = '"')
    (hf : ∀ c ∈ f, ¬(c = ',' ∨ c = '\n')) :
    readRowF (fuel + 1) (f ++ '\n' :: rest) = some ([f], rest) := by
  have hfld := readField_bare f ('\n' :: rest) hne hhead hf
    (by intro c hc; simp only [List.head?_cons, Option.some.injEq] at hc; subst hc; right; rfl)
  rw [readRowF, hfld]
  simp

theorem toString_int_chars (z : Int) :
    ∀ ch ∈ (toString z).data, ch.isDigit = true ∨ ch = '-' := by
  cases z with
  | ofNat m =>
    show ∀ ch ∈ (toString m).data, _
    rw [toString_nat_data]
    intro ch hch
    exact Or.inl (natChars_isDigit m ch hch)
  | negSucc m =>
    show ∀ ch ∈ ("-" ++ toString (m + 1)).data, _
    rw [String.data_append, toString_nat_data]
    intro ch hch
    rcases List.mem_append.mp hch with h1 | h2
    · right
      simpa using h1
    · exact Or.inl (natChars_isDigit (m + 1) ch h2)

theorem toString_int_ne_nil (z : Int) : (toString z).data ≠ [] := by
  cases z with
  | ofNat m =>
    show (toString m).data ≠ []
    rw [toString_nat_data]
    exact natChars_ne_nil m
  | negSucc m =>
    show ("-" ++ toString (m + 1)).data ≠ []
    rw [String.data_append]
    simp

theorem digit_or_dash_not_special (ch : Char) (h : ch.isDigit = true ∨ ch = '-') :
    ¬ ch = '"' ∧ ¬(ch = ',' ∨ ch = '\n') := by
  rcases h with h | h
  · refine ⟨?_, ?_⟩
    · intro he; subst he; simp [Char.isDigit] at h
    · rintro (he | he) <;> (subst he; simp [Char.isDigit] at h)
  · subst h
    refine ⟨by decide, by decide⟩

/-- The cells of one generated CSV row, as a standard parser decodes
them: id, author, decimal score, decimal depth, Python bool, timestamp,
and the body with quotes restored but newlines already collapsed by the
writer. -/
def csvRowCells (c : ExtractedComment) : List (List Char) :=
  [c.id.data, c.author.data, (toString c.score).data, (toString c.depth).data,
   (pyBool c.is_submitter).data, c.created_datetime.data, nlToSpace c.body.data]

theorem readRowF_csvLine (c : ExtractedComment) (rest : List Char) (fuel : Nat)
    (hid : '"' ∉ c.id.data) (hdt : '"' ∉ c.created_datetime.data) :
    readRowF (fuel + 7) (csvLine c ++ rest) = some (csvRowCells c, rest) := by
  have hsc := toString_int_chars c.score
  have hsd : ∀ ch ∈ (toString c.depth).data, ch.isDigit = true := by
    rw [toString_nat_data]; exact natChars_isDigit c.depth
  have hb : ∀ ch ∈ (pyBool c.is_submitter).data, ¬ ch = '"' ∧ ¬(ch = ',' ∨ ch = '\n') := by
    cases c.is_submitter <;> decide
  simp only [csvLine, List.cons_append, List.append_assoc, List.nil_append]
  rw [show (fuel + 7) = (fuel + 6) + 1 from rfl]
  conv_lhs => rw [← escQuote_no_quote c.id.data hid]
  rw [rowStep_quoted]
  rw [show (fuel + 6) = (fuel + 5) + 1 from rfl, rowStep_quoted]
  rw [show (fuel + 5) = (fuel + 4) + 1 from rfl]
  rw [rowStep_bare (fuel + 4) (toString c.score).data _ (toString_int_ne_nil c.score)
    (fun ch hch => (digit_or_dash_not_special ch (hsc ch (List.mem_of_mem_head? hch))).1)
    (fun ch hch => (digit_or_dash_not_special ch (hsc ch hch)).2)]
  rw [show (fuel + 4) = (fuel + 3) + 1 from rfl]
  rw [rowStep_bare (fuel + 3) (toString c.depth).data _
    (by rw [toString_nat_data]; exact natChars_ne_nil c.depth)
    (fun ch hch => (digit_or_dash_not_special ch (Or.inl (hsd ch (List.mem_of_mem_head? hch)))).1)
    (fun ch hch => (digit_or_dash_not_special ch (Or.inl (hsd ch hch))).2)]
  rw [show (fuel + 3) = (fuel + 2) + 1 from rfl]
  rw [rowStep_bare (fuel + 2) (pyBool c.is_submitter).data _
    (by cases c.is_submitter <;> simp [pyBool])
    (fun ch hch => (hb ch (List.mem_of_mem_head? hch)).1)
    (fun ch hch => (hb ch hch).2)]
  rw [show (fuel + 2) = (fuel + 1) + 1 from rfl]
  conv_lhs => rw [← escQuote_no_quote c.created_datetime.data hdt]
  rw [rowStep_quoted]
  rw [nlToSpace_escQuote]
  rw [rowStep_quoted_last]
  simp [csvRowCells]

/-- The header cells of the generated CSV (line 220). -/
def csvHeaderCells : List (List Char) :=
  ["id".data, "author".data, "score".data, "depth".data, "is_submitter".data,
   "created_datetime".data, "body".data]

theorem head_ne_quote_of_ne {l : List Char} {d : Char} (hl : l.head? = some d)
    (hd : ¬ d = '"') : ∀ c, l.head? = some c → ¬ c = '"' := by
  intro c hc
  rw [hl] at hc
  injection hc with h
  rw [← h]
  exact hd

theorem readRowF_header (rest : List Char) (fuel : Nat) :
    readRowF (fuel + 7) (csvHeader.data ++ rest) = some (csvHeaderCells, rest) := by
  have h1 : csvHeader.data ++ rest =
      "id".data ++ ',' :: ("author".data ++ ',' :: ("score".data ++ ',' :: ("depth".data ++
        ',' :: ("is_submitter".data ++ ',' :: ("created_datetime".data ++
          ',' :: ("body".data ++ '\n' :: rest)))))) := rfl
  rw [h1]
  rw [show (fuel + 7) = (fuel + 6) + 1 from rfl]
  rw [rowStep_bare (fuel + 6) "id".data _ (by decide)
    (head_ne_quote_of_ne rfl (by decide)) (by decide)]
  rw [show (fuel + 6) = (fuel + 5) + 1 from rfl]
  rw [rowStep_bare (fuel + 5) "author".data _ (by decide)
    (head_ne_quote_of_ne rfl (by decide)) (by decide)]
  rw [show (fuel + 5) = (fuel + 4) + 1 from rfl]
  rw [rowStep_bare (fuel + 4) "score".data _ (by decide)
    (head_ne_quote_of_ne rfl (by decide)) (by decide)]
  rw [show (fuel + 4) = (fuel + 3) + 1 from rfl]
  rw [rowStep_bare (fuel + 3) "depth".data _ (by decide)
    (head_ne_quote_of_ne rfl (by decide)) (by decide)]
  rw [show (fuel + 3) = (fuel + 2) + 1 from rfl]
  rw [rowStep_bare (fuel + 2) "is_submitter".data _ (by decide)
    (head_ne_quote_of_ne rfl (by decide)) (by decide)]
  rw [show (fuel + 2) = (fuel + 1) + 1 from rfl]
  rw [rowStep_bare (fuel + 1) "created_datetime".data _ (by decide)
    (head_ne_quote_of_ne rfl (by decide)) (by decide)]
  rw [rowStep_bare_last fuel "body".data _ (by decide)
    (head_ne_quote_of_ne rfl (by decide)) (by decide)]
  simp [csvHeaderCells]

/-- The record reader is insensitive to its fuel as long as the fuel
exceeds the input length. -/
theorem readRowF_congr : (f1 f2 : Nat) → (l : List Char) → l.length < f1 → l.length < f2 →
    readRowF f1 l = readRowF f2 l
  | 0, _, l, h1, _ => absurd h1 (by omega)
  | _ + 1, 0, l, _, h2 => absurd h2 (by omega)
  | f1 + 1, f2 + 1, l, h1, h2 => by
    rw [readRowF]
    conv_rhs => rw [readRowF]
    cases hf : readField l with
    | none => rfl
    | some p =>
      obtain ⟨f, rest⟩ := p
      have hlen := readField_length l f rest hf
      cases rest with
      | nil => rfl
      | cons ch r2 =>
        by_cases hn : ch = '\n'
        · simp [hn]
        · by_cases hcm : ch = ','
          · have hr2 : r2.length < f1 := by
              simp only [List.length_cons] at hlen
              omega
            have hr2b : r2.length < f2 := by
              simp only [List.length_cons] at hlen
              omega
            simp [hn, hcm, readRowF_congr f1 f2 r2 hr2 hr2b]
          · simp [hn, hcm]

theorem readRow_csvLine (c : ExtractedComment) (rest : List Char)
    (hid : '"' ∉ c.id.data) (hdt : '"' ∉ c.created_datetime.data) :
    readRow (csvLine c ++ rest) = some (csvRowCells c, rest) := by
  rw [readRow,
    readRowF_congr ((csvLine c ++ rest).length + 1) ((csvLine c ++ rest).length + 7) _
      (by omega) (by omega)]
  exact readRowF_csvLine c rest _ hid hdt

theorem readRow_header (rest : List Char) :
    readRow (csvHeader.data ++ rest) = some (csvHeaderCells, rest) := by
  rw [readRow,
    readRowF_congr ((csvHeader.data ++ rest).length + 1) ((csvHeader.data ++ rest).length + 7) _
      (by omega) (by omega)]
  exact readRowF_header rest _

theorem csvLine_ne_nil (c : ExtractedComment) : csvLine c ++ rest ≠ [] := by
  simp [csvLine]

/-- Parsing the concatenated data rows recovers every row's cells, in
order. -/
theorem readRows_content : (rows : List ExtractedComment) → (fuel : Nat) →
    rows.length < fuel →
    (∀ c ∈ rows, '"' ∉ c.id.data ∧ '"' ∉ c.created_datetime.data) →
    readRows fuel ((rows.map csvLine).flatten) = some (rows.map csvRowCells)
  | [], fuel + 1, _, _ => by simp [readRows]
  | c :: rest, fuel + 1, hfuel, h => by
    have hne : csvLine c ++ (rest.map csvLine).flatten ≠ [] := csvLine_ne_nil c
    have hc := h c (List.mem_cons_self c rest)
    rw [List.map_cons, List.flatten_cons, readRows, if_neg hne,
      readRow_csvLine c _ hc.1 hc.2]
    show (readRows fuel ((rest.map csvLine).flatten)).map (fun rs => csvRowCells c :: rs) =
      some ((c :: rest).map csvRowCells)
    rw [readRows_content rest fuel (by simpa using Nat.lt_of_succ_lt_succ hfuel)
      (fun x hx => h x (List.mem_cons_of_mem c hx))]
    rfl

theorem flatten_csvLine_length_ge (l : List ExtractedComment) :
    l.length ≤ ((l.map csvLine).flatten).length := by
  induction l with
  | nil => simp
  | cons c rest ih =>
    simp only [List.map_cons, List.flatten_cons, List.length_append, List.length_cons]
    have h1 : 0 < (csvLine c).length :=
      List.length_pos.mpr (by simp [csvLine])
    omega

/-- C4 (amended): for every scrape result whose comment bodies are ASCII
(double quotes and newlines included) and whose comment ids and rendered
timestamps contain no double quote - always true for the ids Reddit
issues and for the program's own ISO timestamps - parsing the emitted CSV
yields the header row followed by one row per comment in order, and each
parsed row recovers the comment's (id, author, score, depth) tuple. -/
theorem csv_round_trip (results : ScrapeResult)
    (hascii : ∀ c ∈ results.comments, ∀ ch ∈ c.body.data, ch.toNat < 128)
    (hid : ∀ c ∈ results.comments, '"' ∉ c.id.data)
    (hdt : ∀ c ∈ results.comments, '"' ∉ c.created_datetime.data) :
    parseCSV (csvFileContent results) =
      some (csvHeaderCells :: results.comments.map csvRowCells) ∧
    (results.comments.map csvRowCells).map (fun row =>
        (String.mk (row.getD 0 []), String.mk (row.getD 1 []),
         cellToInt (row.getD 2 []), cellToNat (row.getD 3 []))) =
      results.comments.map (fun c => (c.id, c.author, c.score, c.depth)) := by
  constructor
  · have hdata : (csvFileContent results).data =
        csvHeader.data ++ (results.comments.map csvLine).flatten := rfl
    rw [parseCSV, hdata]
    have hne : csvHeader.data ++ (results.comments.map csvLine).flatten ≠ [] := by
      simp [csvHeader]
    rw [readRows, if_neg hne, readRow_header]
    show (readRows (csvHeader.data ++ (results.comments.map csvLine).flatten).length
        ((results.comments.map csvLine).flatten)).map (fun rs => csvHeaderCells :: rs) =
      some (csvHeaderCells :: results.comments.map csvRowCells)
    have hlen : results.comments.length <
        (csvHeader.data ++ (results.comments.map csvLine).flatten).length := by
      have h1 := flatten_csvLine_length_ge results.comments
      have h2 : 0 < csvHeader.data.length := by simp [csvHeader]
      simp only [List.length_append]
      omega
    rw [readRows_content results.comments _ hlen (fun c hc => ⟨hid c hc, hdt c hc⟩)]
    rfl
  · simp only [List.map_map]
    apply List.map_congr_left
    intro c hc
    simp [csvRowCells, Function.comp, cellToInt_toString, cellToNat_toString]

/-- A comment whose body holds quotes and a newline and whose author
holds a quote, to exercise the CSV escaping. -/
def csvDemoComment : ExtractedComment :=
  extract_comment_data
    { mkInfo "c1" with body := "say \"hi\"\nbye", author := some "a\"b" }

/-- A scrape result exercising the CSV escaping. -/
def csvDemoResult : ScrapeResult :=
  { post := extract_post_data demoPost, comments := [csvDemoComment],
    total_comments := 1, scraped_at := "t" }

/-- Witness for C4 at a concrete result with quotes and newlines in the
body and a quote in the author. -/
theorem csv_round_trip_witness :
    parseCSV (csvFileContent csvDemoResult) =
      some (csvHeaderCells :: csvDemoResult.comments.map csvRowCells) ∧
    (csvDemoResult.comments.map csvRowCells).map (fun row =>
        (String.mk (row.getD 0 []), String.mk (row.getD 1 []),
         cellToInt (row.getD 2 []), cellToNat (row.getD 3 []))) =
      csvDemoResult.comments.map (fun c => (c.id, c.author, c.score, c.depth)) :=
  csv_round_trip csvDemoResult (by decide) (by decide) (by decide)

/-- A comment whose id contains a double quote; its body is plain ASCII. -/
def badIdComment : ExtractedComment := extract_comment_data (mkInfo "a\"b")

/-- A scrape result whose only comment has a quote inside its id. -/
def badIdResult : ScrapeResult :=
  { post := extract_post_data demoPost, comments := [badIdComment],
    total_comments := 1, scraped_at := "t" }

/-- C4 counterexample: the claim quantifies over every ScrapeResult with
ASCII bodies, but a comment id containing a double quote (the id is
written unescaped) yields a malformed CSV row: parsing fails and no
tuple is recovered. -/
theorem csv_round_trip_counterexample :
    (∀ c ∈ badIdResult.comments, ∀ ch ∈ c.body.data, ch.toNat < 128) ∧
    parseCSV (csvFileContent badIdResult) = none := by
  exact ⟨by decide, by decide⟩
